import Mathlib

/-!
Verification of the single-precision pow routine in src/math/e_powf.c.

The C code works on IEEE-754 bit patterns through `asuint`/`asfloat` casts, so
the model represents a binary32 value by its 32-bit pattern (a `Nat` below
2^32) and a binary64 value by its 64-bit pattern (a `Nat` below 2^64).
Unsigned wraparound arithmetic is written out as explicit `% 2^32` / `% 2^64`.
The exact real value encoded by a finite pattern is given as a rational.

The numeric lookup tables `__powf_log2_data` and `__exp2f_data` consumed by
`log2_inline`/`exp2_inline` live in data files of this repository that are not
under src/; the common-path value computation is therefore not modelled.  The
dispatcher (lines 148-225) is modelled in full at the bit level: it either
returns a result directly or hands a (bit-pattern, sign-bias) pair to the
common path; the common-path tail (overflow/underflow screening, lines
208-224) is modelled as a function of the bit pattern of the already computed
double `ylogx`.  A few helpers from math_config.h (error returns, signaling
NaN test) are not under src/ and are modelled from the spec; each such
definition carries a doc comment starting with "Modelled from the spec".

Configuration: the default build is modelled (no TOINT intrinsics, so
POWF_SCALE = 1; the EXP2F_TABLE_BITS = 5 setting is stated in the comment at
the top of src/math/e_powf.c).  WANT_ERRNO is kept as an explicit boolean
parameter of the dispatcher; WANT_ERRNO_UFLOW is modelled disabled (per the
spec its branch never changes the numeric result).
-/

set_option maxRecDepth 8000

namespace PowfModel

/-! ### Binary32 bit-field accessors and exact value semantics -/

/-- Biased exponent field of a binary32 pattern (bits 23-30). -/
def exp32 (ix : Nat) : Nat := ix >>> 23 &&& 0xff

/-- Mantissa field of a binary32 pattern (bits 0-22). -/
def frac32 (ix : Nat) : Nat := ix &&& 0x7fffff

/-- Integral significand of a finite binary32 pattern: subnormals have no
implicit leading bit, normals do. -/
def sig32 (ix : Nat) : Nat := if exp32 ix = 0 then frac32 ix else 2 ^ 23 + frac32 ix

/-- Exact rational value encoded by a finite binary32 pattern: the value is
`(-1)^s * sig * 2^(e - 150)` for normal patterns (biased exponent `e`, bias
127, 23 fraction bits) and `(-1)^s * f * 2^(-149)` for subnormal ones; both
cases are uniformly `(-1)^s * sig * 2^(max e 1) / 2^150`. -/
def val32 (ix : Nat) : ℚ :=
  (if ix.testBit 31 then -1 else 1) * ((sig32 ix * 2 ^ max (exp32 ix) 1 : Nat) : ℚ) / 2 ^ 150

/-- True iff the pattern encodes a NaN (exponent all ones, nonzero mantissa). -/
def isNaN32 (ix : Nat) : Bool := decide (0x7f800000 < ix &&& 0x7fffffff)

/-- Setting the quiet bit (bit 22) of a NaN pattern. -/
def quietNaN32 (ix : Nat) : Nat := ix ||| 0x400000

/-! ### The classification helpers of e_powf.c -/

/-- Line 142-146: `zeroinfnan (ix)` returns `2 * ix - 1 >= 2u * 0x7f800000 - 1`
in 32-bit unsigned wraparound arithmetic. -/
def zeroinfnan (ix : Nat) : Bool :=
  decide (2 * 0x7f800000 - 1 ≤ (2 * ix % 2 ^ 32 + (2 ^ 32 - 1)) % 2 ^ 32)

/-- Lines 126-140: returns 0 if the encoded value is not an integer, 1 if it is
an odd integer, 2 if it is an even integer (callers only pass finite nonzero
patterns). -/
def checkint (iy : Nat) : Nat :=
  let e : Nat := iy >>> 23 &&& 0xff
  if e < 0x7f then 0
  else if 0x7f + 23 < e then 2
  else if iy &&& ((1 <<< (0x7f + 23 - e)) - 1) ≠ 0 then 0
  else if iy &&& (1 <<< (0x7f + 23 - e)) ≠ 0 then 1
  else 2

/-- Modelled from the spec: `issignalingf_inline` lives in math_config.h, which
is not under src/.  Per the spec's glossary a signaling NaN is a NaN encoding
with the quiet bit (bit 22) clear. -/
def issignalingf_inline (ix : Nat) : Bool :=
  isNaN32 ix && decide (ix &&& 0x400000 = 0)

/-! ### Floating-point operations on special operands

The special-case branches of the dispatcher apply `+`, `*`, `-`, `/` only to
operands that are zero, infinite or NaN, where IEEE-754 fixes the result
exactly; these definitions are those exact results. -/

/-- Modelled from the spec: the result of the C expression `x + y` in the
NaN-propagation returns (lines 164, 166, 168), where at least one operand is a
NaN.  Per the spec, a signaling NaN operand is propagated quieted via the
addition; the first operand is preferred. -/
def addNaN32 (ix iy : Nat) : Nat :=
  if isNaN32 ix then quietNaN32 ix else quietNaN32 iy

/-- The C expression `x * x` for an operand in the zeroinfnan class (line 177
and the `y * y` of line 173): zero squares to +0, an infinity to +inf, and a
NaN propagates quieted. -/
def sqSpecial32 (ix : Nat) : Nat :=
  if isNaN32 ix then quietNaN32 ix
  else if ix &&& 0x7fffffff = 0 then 0
  else 0x7f800000

/-- The C negation `-x2` (line 180): flips the sign bit. -/
def fneg32 (ix : Nat) : Nat := ix ^^^ 0x80000000

/-- The C expression `1 / x2` (line 187) where `x2` is +-0, +-inf or a quiet
NaN: the reciprocal of a zero is the like-signed infinity, of an infinity the
like-signed zero, and a NaN propagates. -/
def recipSpecial32 (ix : Nat) : Nat :=
  if isNaN32 ix then ix
  else if ix &&& 0x7fffffff = 0 then ix ||| 0x7f800000
  else ix &&& 0x80000000

/-! ### Error-path results (math_config.h is not under src/) -/

/-- Error conditions signalled by the `__math_*` helpers (errno-style side
channel; per the spec it is raised only where the code calls these helpers). -/
inductive Sig where
  | invalid
  | divzero
  | overflow
  | underflow
  deriving DecidableEq, Repr

/-- Modelled from the spec: `__math_invalidf` is not under src/; an
invalid-domain error returns a quiet NaN (the default one). -/
def invalidRes : Nat := 0x7fc00000

/-- Modelled from the spec: `__math_divzerof` is not under src/; a pole error
returns the correctly-signed infinity. -/
def divzeroRes (sb : Nat) : Nat := if sb ≠ 0 then 0xff800000 else 0x7f800000

/-- Modelled from the spec: `__math_oflowf` is not under src/; an overflow
returns the correctly-signed infinity. -/
def oflowRes (sb : Nat) : Nat := if sb ≠ 0 then 0xff800000 else 0x7f800000

/-- Modelled from the spec: `__math_uflowf` is not under src/; an underflow
returns the correctly-signed zero. -/
def uflowRes (sb : Nat) : Nat := if sb ≠ 0 then 0x80000000 else 0

/-! ### The dispatcher (ARM__powf, lines 148-207) -/

/-- Line 32 of the source comment fixes EXP2F_TABLE_BITS = 5. -/
def EXP2F_TABLE_BITS : Nat := 5

/-- Line 86: `SIGN_BIAS = 1 << (EXP2F_TABLE_BITS + 11)`. -/
def SIGN_BIAS : Nat := 1 <<< (EXP2F_TABLE_BITS + 11)

/-- Lines 200-206: the bit pattern produced by normalizing a positive
subnormal, i.e. `asuint (x * 0x1p23f) & 0x7fffffff` followed by the unsigned
subtraction `ix -= 23 << 23`.  For a subnormal magnitude pattern `f` the
product `x * 0x1p23f` is the exactly representable normal value `f * 2^-126`,
whose pattern has biased exponent `log2 f + 1` and mantissa `f` shifted up to
bit 23 with the leading bit dropped. -/
def normalizeSub (ix : Nat) : Nat :=
  let f : Nat := ix &&& 0x7fffff
  let nb : Nat := ((Nat.log2 f + 1) <<< 23) ||| ((f <<< (23 - Nat.log2 f)) &&& 0x7fffff)
  (nb + 2 ^ 32 - (23 <<< 23)) % 2 ^ 32

/-- Outcome of the dispatcher: either an immediate return of a bit pattern
(with the error condition signalled on that path, if any), or the hand-off to
the common path with the adjusted positive-normal pattern of `x` and the sign
bias. -/
inductive DResult where
  | ret (bits : Nat) (sig : Option Sig)
  | common (ix sb : Nat)
  deriving DecidableEq, Repr

/-- Lines 148-207 of ARM__powf: the full special-case dispatch, bit-exact.
`wantErrno` is the WANT_ERRNO build flag.  `ix`, `iy` are `asuint x`,
`asuint y`. -/
def powfDispatch (wantErrno : Bool) (ix iy : Nat) : DResult :=
  if 0x7f800000 - 0x00800000 ≤ (ix + 2 ^ 32 - 0x00800000) % 2 ^ 32 ∨ zeroinfnan iy then
    if zeroinfnan iy then
      if 2 * iy % 2 ^ 32 = 0 then
        if issignalingf_inline ix then .ret (addNaN32 ix iy) none else .ret 0x3f800000 none
      else if ix = 0x3f800000 then
        if issignalingf_inline iy then .ret (addNaN32 ix iy) none else .ret 0x3f800000 none
      else if 2 * 0x7f800000 < 2 * ix % 2 ^ 32 ∨ 2 * 0x7f800000 < 2 * iy % 2 ^ 32 then
        .ret (addNaN32 ix iy) none
      else if 2 * ix % 2 ^ 32 = 2 * 0x3f800000 then
        .ret 0x3f800000 none
      else if decide (2 * ix % 2 ^ 32 < 2 * 0x3f800000) = decide (iy &&& 0x80000000 = 0) then
        .ret 0 none
      else
        .ret (sqSpecial32 iy) none
    else if zeroinfnan ix then
      let x2 : Nat := sqSpecial32 ix
      let x2 : Nat := if ix &&& 0x80000000 ≠ 0 ∧ checkint iy = 1 then fneg32 x2 else x2
      let sb : Nat := if ix &&& 0x80000000 ≠ 0 ∧ checkint iy = 1 then 1 else 0
      if wantErrno = true ∧ 2 * ix % 2 ^ 32 = 0 ∧ iy &&& 0x80000000 ≠ 0 then
        .ret (divzeroRes sb) (some .divzero)
      else if iy &&& 0x80000000 ≠ 0 then
        .ret (recipSpecial32 x2) none
      else
        .ret x2 none
    else
      if ix &&& 0x80000000 ≠ 0 ∧ checkint iy = 0 then
        .ret invalidRes (some .invalid)
      else
        let sb : Nat := if ix &&& 0x80000000 ≠ 0 ∧ checkint iy = 1 then SIGN_BIAS else 0
        let ixa : Nat := ix &&& 0x7fffffff
        let ixn : Nat := if ixa < 0x00800000 then normalizeSub ixa else ixa
        .common ixn sb
  else
    .common ix 0

/-! ### Binary64 bit-field accessors and exact value semantics -/

/-- Biased exponent field of a binary64 pattern (bits 52-62). -/
def exp64 (d : Nat) : Nat := d >>> 52 &&& 0x7ff

/-- Mantissa field of a binary64 pattern (bits 0-51). -/
def frac64 (d : Nat) : Nat := d &&& 0xfffffffffffff

/-- Integral significand of a finite binary64 pattern. -/
def sig64 (d : Nat) : Nat := if exp64 d = 0 then frac64 d else 2 ^ 52 + frac64 d

/-- Exact rational value encoded by a finite binary64 pattern (bias 1023, 52
fraction bits, so the value is `(-1)^s * sig * 2^(max e 1) / 2^1075`). -/
def val64 (d : Nat) : ℚ :=
  (if d.testBit 63 then -1 else 1) * ((sig64 d * 2 ^ max (exp64 d) 1 : Nat) : ℚ) / 2 ^ 1075

/-- True iff the binary64 pattern encodes a finite value. -/
def finite64 (d : Nat) : Bool := decide (exp64 d ≠ 0x7ff)

/-- The C comparison `d > q` for a binary64 pattern `d` against an exact
rational constant: NaN compares false, infinities compare by sign. -/
def fgt64 (d : Nat) (q : ℚ) : Bool :=
  if exp64 d = 0x7ff then (if frac64 d ≠ 0 then false else !d.testBit 63)
  else decide (q < val64 d)

/-- The C comparison `d <= q`, with the same conventions as `fgt64`. -/
def fle64 (d : Nat) (q : ℚ) : Bool :=
  if exp64 d = 0x7ff then (if frac64 d ≠ 0 then false else d.testBit 63)
  else decide (val64 d ≤ q)

/-! ### The common-path tail (lines 208-224) -/

/-- Modelled from the spec: POWF_SCALE comes from math_config.h (not under
src/) and is 1 in the default configuration without TOINT intrinsics. -/
def POWF_SCALE : ℚ := 1

/-- The binary64 constant `0x1.fffffffd1d571p+6` of line 215 as an exact
rational: `0x1fffffffd1d571 * 2^-46`. -/
def upperThreshold : ℚ := 0x1fffffffd1d571 / 2 ^ 46

/-- Lines 210-212: the fast exponent-field screen
`(asuint64 (ylogx) >> 47 & 0xffff) >= asuint64 (126.0 * POWF_SCALE) >> 47`,
where `asuint64 (126.0) = 0x405f800000000000`. -/
def powfFastCheck (d : Nat) : Bool :=
  decide (0x405f800000000000 >>> 47 ≤ d >>> 47 &&& 0xffff)

/-- Lines 210-223: the overflow/underflow screening applied to the bit pattern
`d` of the computed double `ylogx` with sign bias `sb`.  `some` is an early
return with its signalled condition; `none` falls through to
`exp2_inline (ylogx, sign_bias)`.  The WANT_ERRNO_UFLOW branch is modelled
disabled (per the spec it never changes the numeric result). -/
def powfTail (d sb : Nat) : Option (Nat × Sig) :=
  if powfFastCheck d then
    if fgt64 d (upperThreshold * POWF_SCALE) then some (oflowRes sb, .overflow)
    else if fle64 d (-150 * POWF_SCALE) then some (uflowRes sb, .underflow)
    else none
  else none

/-- Lines 115-116 of exp2_inline: the 64-bit addend
`ski << (52 - EXP2F_TABLE_BITS)` with `ski = ki + sign_bias`, reduced to the
64-bit word it is added into. -/
def exp2ShiftedAddend (ki sb : Nat) : Nat :=
  ((ki + sb) <<< (52 - EXP2F_TABLE_BITS)) % 2 ^ 64

/-! ### Mathematical integrality predicates (for the checkint contract) -/

/-- The rational `q` is a mathematical integer. -/
def isIntQ (q : ℚ) : Prop := ∃ n : ℤ, q = (n : ℚ)

/-- The rational `q` is an odd integer. -/
def isOddIntQ (q : ℚ) : Prop := ∃ n : ℤ, q = ((2 * n + 1 : ℤ) : ℚ)

/-- The rational `q` is an even integer. -/
def isEvenIntQ (q : ℚ) : Prop := ∃ n : ℤ, q = ((2 * n : ℤ) : ℚ)

/-! ### Facts about the integrality predicates -/

lemma isIntQ_of_odd {q : ℚ} (h : isOddIntQ q) : isIntQ q := by
  obtain ⟨n, rfl⟩ := h
  exact ⟨2 * n + 1, rfl⟩

lemma isIntQ_of_even {q : ℚ} (h : isEvenIntQ q) : isIntQ q := by
  obtain ⟨n, rfl⟩ := h
  exact ⟨2 * n, rfl⟩

lemma not_odd_and_even {q : ℚ} (h1 : isOddIntQ q) (h2 : isEvenIntQ q) : False := by
  obtain ⟨n, rfl⟩ := h1
  obtain ⟨m, hm⟩ := h2
  have : (2 * n + 1 : ℤ) = 2 * m := by exact_mod_cast hm
  omega

/-- A nonzero rational of magnitude below one is not an integer; stated in the
shape `sgn * S / 2^150` produced by `val32`. -/
lemma not_int_small (S : Nat) (sgn : ℚ) (hsgn : sgn = 1 ∨ sgn = -1)
    (h0 : 0 < S) (hS : S < 2 ^ 150) : ¬ isIntQ (sgn * (S : ℚ) / 2 ^ 150) := by
  rintro ⟨n, hn⟩
  have hSz : (S : ℤ) = n * 2 ^ 150 ∨ (S : ℤ) = -n * 2 ^ 150 := by
    rcases hsgn with rfl | rfl
    · rw [one_mul, div_eq_iff (by positivity : ((2 : ℚ) ^ 150) ≠ 0)] at hn
      exact Or.inl (by exact_mod_cast hn)
    · rw [neg_one_mul, neg_div, neg_eq_iff_eq_neg] at hn
      rw [div_eq_iff (by positivity : ((2 : ℚ) ^ 150) ≠ 0)] at hn
      refine Or.inr ?_
      have : (S : ℚ) = (-n : ℤ) * 2 ^ 150 := by push_cast; linarith [hn]
      exact_mod_cast this
  have h1 : (S : ℤ) < 2 ^ 150 := by exact_mod_cast hS
  have h2 : (0 : ℤ) < (S : ℤ) := by exact_mod_cast h0
  rcases hSz with h | h <;> omega

/-! ### Generic bit-arithmetic bridging lemmas -/

lemma and_pow_ne_zero_iff (x n : Nat) : x &&& 2 ^ n ≠ 0 ↔ x / 2 ^ n % 2 = 1 := by
  rw [Nat.and_two_pow, Nat.testBit_to_div_mod]
  by_cases h : x / 2 ^ n % 2 = 1 <;> simp [h]

lemma parity_div_add (a i k : Nat) : (a + 2 ^ i * (2 * k)) / 2 ^ i % 2 = a / 2 ^ i % 2 := by
  rw [mul_comm, Nat.add_mul_div_right _ _ (Nat.pos_pow_of_pos i (by norm_num))]
  omega

lemma exp32_eq (iy : Nat) : exp32 iy = iy / 2 ^ 23 % 2 ^ 8 := by
  unfold exp32
  rw [Nat.shiftRight_eq_div_pow, show (0xff : ℕ) = 2 ^ 8 - 1 from rfl,
    Nat.and_pow_two_sub_one_eq_mod]

lemma frac32_eq (iy : Nat) : frac32 iy = iy % 2 ^ 23 := by
  unfold frac32
  rw [show (0x7fffff : ℕ) = 2 ^ 23 - 1 from rfl, Nat.and_pow_two_sub_one_eq_mod]

lemma mask31_eq (iy : Nat) : iy &&& 0x7fffffff = iy % 2 ^ 31 := by
  rw [show (0x7fffffff : ℕ) = 2 ^ 31 - 1 from rfl, Nat.and_pow_two_sub_one_eq_mod]

/-- `checkint` with its bit tests re-expressed through division and modulus. -/
lemma checkint_eq (iy : Nat) :
    checkint iy =
      if exp32 iy < 127 then 0
      else if 150 < exp32 iy then 2
      else if iy % 2 ^ (150 - exp32 iy) ≠ 0 then 0
      else if iy / 2 ^ (150 - exp32 iy) % 2 = 1 then 1
      else 2 := by
  simp only [checkint, Nat.shiftLeft_eq, one_mul, Nat.and_pow_two_sub_one_eq_mod,
    and_pow_ne_zero_iff, show (0x7f : ℕ) + 23 = 150 from rfl, exp32]

/-! ### Correctness of checkint against the exact value semantics -/

/-- Any finite pattern with biased exponent at most 150 encodes a value of
magnitude below 2^24. -/
lemma val32_abs_small (iy : Nat) (he : exp32 iy ≤ 150) : |val32 iy| < 2 ^ 24 := by
  have habs : |val32 iy| = ((sig32 iy * 2 ^ max (exp32 iy) 1 : Nat) : ℚ) / 2 ^ 150 := by
    unfold val32
    rw [abs_div, abs_mul]
    rw [show |(if iy.testBit 31 then (-1 : ℚ) else 1)| = 1 by
      by_cases h : iy.testBit 31 <;> simp [h]]
    rw [one_mul, abs_of_nonneg (by positivity : (0 : ℚ) ≤ _),
      abs_of_nonneg (by positivity : (0 : ℚ) ≤ (2 : ℚ) ^ 150)]
  rw [habs, div_lt_iff₀ (by positivity : (0 : ℚ) < (2 : ℚ) ^ 150)]
  have hsig : sig32 iy < 2 ^ 24 := by
    unfold sig32
    have := frac32_eq iy
    split <;> omega
  have hexp : (2 : ℕ) ^ max (exp32 iy) 1 ≤ 2 ^ 150 :=
    Nat.pow_le_pow_right (by norm_num) (by omega)
  have hnat : sig32 iy * 2 ^ max (exp32 iy) 1 < 2 ^ 24 * 2 ^ 150 :=
    Nat.mul_lt_mul_of_lt_of_le hsig hexp (by positivity)
  calc ((sig32 iy * 2 ^ max (exp32 iy) 1 : Nat) : ℚ) < ((2 ^ 24 * 2 ^ 150 : Nat) : ℚ) := by
        exact_mod_cast hnat
    _ = 2 ^ 24 * 2 ^ 150 := by push_cast; ring

/-- The full contract of `checkint` on finite nonzero patterns: its result
classifies the encoded value as non-integer, odd integer, or even integer. -/
lemma checkint_classify (iy : Nat) (h32 : iy < 2 ^ 32) (hfin : exp32 iy ≠ 0xff)
    (hnz : iy &&& 0x7fffffff ≠ 0) :
    (checkint iy = 0 ∧ ¬ isIntQ (val32 iy)) ∨
    (checkint iy = 1 ∧ isOddIntQ (val32 iy)) ∨
    (checkint iy = 2 ∧ isEvenIntQ (val32 iy)) := by
  have hfe : frac32 iy = iy % 2 ^ 23 := frac32_eq iy
  have hee : exp32 iy = iy / 2 ^ 23 % 2 ^ 8 := exp32_eq iy
  have hnz' : iy % 2 ^ 31 ≠ 0 := by rw [mask31_eq] at hnz; exact hnz
  by_cases h1 : exp32 iy < 127
  · -- |value| below 1: not an integer
    left
    refine ⟨by rw [checkint_eq, if_pos h1], ?_⟩
    unfold val32
    apply not_int_small
    · by_cases h : iy.testBit 31 <;> simp [h]
    · have hsig : 0 < sig32 iy := by
        unfold sig32
        by_cases he0 : exp32 iy = 0
        · rw [if_pos he0, hfe]
          rw [hee] at he0
          omega
        · rw [if_neg he0]
          positivity
      positivity
    · have hs : sig32 iy ≤ 2 ^ 24 - 1 := by
        unfold sig32
        have := hfe
        split <;> omega
      have hm : (2 : ℕ) ^ max (exp32 iy) 1 ≤ 2 ^ 126 :=
        Nat.pow_le_pow_right (by norm_num) (by omega)
      have hle : sig32 iy * 2 ^ max (exp32 iy) 1 ≤ (2 ^ 24 - 1) * 2 ^ 126 :=
        Nat.mul_le_mul hs hm
      have : ((2 : ℕ) ^ 24 - 1) * 2 ^ 126 < 2 ^ 150 := by norm_num
      omega
  · by_cases h2 : 150 < exp32 iy
    · -- value is sig * 2^(e-150), a multiple of 2: even integer
      right; right
      refine ⟨by rw [checkint_eq, if_neg h1, if_pos h2], ?_⟩
      have he : max (exp32 iy) 1 = exp32 iy := by omega
      have hkey : val32 iy =
          (if iy.testBit 31 then -1 else 1) * ((sig32 iy * 2 ^ (exp32 iy - 150) : Nat) : ℚ) := by
        unfold val32
        rw [he, show (sig32 iy * 2 ^ exp32 iy : Nat) =
            (sig32 iy * 2 ^ (exp32 iy - 150)) * 2 ^ 150 by
          rw [mul_assoc, ← pow_add, show exp32 iy - 150 + 150 = exp32 iy by omega]]
        rw [Nat.cast_mul, Nat.cast_pow, Nat.cast_ofNat, mul_div_assoc,
          mul_div_cancel_right₀ _ (by positivity : ((2 : ℚ) ^ 150) ≠ 0)]
      rw [hkey]
      refine ⟨(if iy.testBit 31 then -1 else 1) * (sig32 iy * 2 ^ (exp32 iy - 151) : Nat), ?_⟩
      have hsplit : sig32 iy * 2 ^ (exp32 iy - 150) =
          2 * (sig32 iy * 2 ^ (exp32 iy - 151)) := by
        rw [show exp32 iy - 150 = 22 - 22 + (exp32 iy - 151) + 1 by omega, pow_succ]
        ring
      by_cases hs : iy.testBit 31 <;> simp only [hs, if_true, if_false] <;> push_cast [hsplit] <;> ring
    · -- 127 <= e <= 150: the mask and parity tests decide everything
      have he127 : 127 ≤ exp32 iy := by omega
      have he150 : exp32 iy ≤ 150 := by omega
      have hd23 : 150 - exp32 iy ≤ 23 := by omega
      have hdvd2323 : (2 : ℕ) ^ (150 - exp32 iy) ∣ 2 ^ 23 := pow_dvd_pow 2 hd23
      have hmodf : iy % 2 ^ (150 - exp32 iy) = frac32 iy % 2 ^ (150 - exp32 iy) := by
        rw [hfe]
        exact (Nat.mod_mod_of_dvd iy hdvd2323).symm
      have hsig : sig32 iy = 2 ^ 23 + frac32 iy := by
        unfold sig32
        rw [if_neg (by omega)]
      have hmax : max (exp32 iy) 1 = exp32 iy := by omega
      -- value of the pattern as +-(sig / 2^d)
      have hvald : val32 iy =
          (if iy.testBit 31 then -1 else 1) * (sig32 iy : ℚ) / 2 ^ (150 - exp32 iy) := by
        unfold val32
        rw [hmax, Nat.cast_mul, Nat.cast_pow, Nat.cast_ofNat,
          show ((2 : ℚ)) ^ 150 = 2 ^ exp32 iy * 2 ^ (150 - exp32 iy) by
            rw [← pow_add, show exp32 iy + (150 - exp32 iy) = 150 by omega],
          mul_div_assoc, mul_comm ((sig32 iy : ℚ)) ((2 : ℚ) ^ exp32 iy),
          mul_div_mul_left _ _ (by positivity : ((2 : ℚ) ^ exp32 iy) ≠ 0),
          ← mul_div_assoc]
      by_cases h3 : iy % 2 ^ (150 - exp32 iy) ≠ 0
      · -- low mantissa bits set: not an integer
        left
        refine ⟨by rw [checkint_eq, if_neg h1, if_neg h2, if_pos h3], ?_⟩
        rw [hvald]
        rintro ⟨n, hn⟩
        rw [div_eq_iff (by positivity : ((2 : ℚ) ^ (150 - exp32 iy)) ≠ 0)] at hn
        have hdvdM : (2 : ℕ) ^ (150 - exp32 iy) ∣ sig32 iy := by
          by_cases hs : iy.testBit 31
          · rw [hs, if_pos rfl] at hn
            have hz : (sig32 iy : ℤ) = -n * 2 ^ (150 - exp32 iy) := by
              have : (sig32 iy : ℚ) = ((-n : ℤ) : ℚ) * 2 ^ (150 - exp32 iy) := by
                push_cast
                linear_combination -hn
              exact_mod_cast this
            have : ((2 : ℕ) ^ (150 - exp32 iy) : ℤ) ∣ (sig32 iy : ℤ) := by
              rw [hz]
              push_cast
              exact Dvd.intro_left _ rfl
            exact_mod_cast this
          · rw [if_neg hs, one_mul] at hn
            have hz : (sig32 iy : ℤ) = n * 2 ^ (150 - exp32 iy) := by exact_mod_cast hn
            have : ((2 : ℕ) ^ (150 - exp32 iy) : ℤ) ∣ (sig32 iy : ℤ) := by
              rw [hz]
              push_cast
              exact Dvd.intro_left _ rfl
            exact_mod_cast this
        have hdvdf : (2 : ℕ) ^ (150 - exp32 iy) ∣ frac32 iy := by
          have := Nat.dvd_sub' hdvdM hdvd2323
          rw [hsig, Nat.add_sub_cancel_left] at this
          exact this
        obtain ⟨c, hc⟩ := hdvdf
        rw [hmodf, hc, Nat.mul_mod_right] at h3
        exact h3 rfl
      · -- divisible: integer; the tested bit decides parity
        push_neg at h3
        have hdvdf : (2 : ℕ) ^ (150 - exp32 iy) ∣ frac32 iy := by
          rw [hmodf] at h3
          exact Nat.dvd_of_mod_eq_zero h3
        have hdvdM : (2 : ℕ) ^ (150 - exp32 iy) ∣ sig32 iy := by
          rw [hsig]
          exact Nat.dvd_add hdvd2323 hdvdf
        have hMk : sig32 iy / 2 ^ (150 - exp32 iy) * 2 ^ (150 - exp32 iy) = sig32 iy :=
          Nat.div_mul_cancel hdvdM
        have hvalk : val32 iy =
            (if iy.testBit 31 then -1 else 1) * ((sig32 iy / 2 ^ (150 - exp32 iy) : ℕ) : ℚ) := by
          rw [hvald]
          have hcast : ((sig32 iy : ℚ)) =
              ((sig32 iy / 2 ^ (150 - exp32 iy) : ℕ) : ℚ) * 2 ^ (150 - exp32 iy) := by
            conv_lhs => rw [← hMk]
            rw [Nat.cast_mul, Nat.cast_pow, Nat.cast_ofNat]
          rw [hcast, ← mul_assoc, mul_div_cancel_right₀ _
            (by positivity : ((2 : ℚ) ^ (150 - exp32 iy)) ≠ 0)]
        have hpar : sig32 iy / 2 ^ (150 - exp32 iy) % 2 = iy / 2 ^ (150 - exp32 iy) % 2 := by
          rcases Nat.lt_or_ge (150 - exp32 iy) 23 with hdlt | hdge
          · have h23d : (2 : ℕ) ^ 23 = 2 ^ (150 - exp32 iy) * 2 ^ (23 - (150 - exp32 iy)) := by
              rw [← pow_add, show 150 - exp32 iy + (23 - (150 - exp32 iy)) = 23 by omega]
            have hkval : sig32 iy / 2 ^ (150 - exp32 iy) =
                2 ^ (23 - (150 - exp32 iy)) + frac32 iy / 2 ^ (150 - exp32 iy) := by
              rw [hsig, h23d, Nat.mul_add_div (by positivity)]
            have hiyd : iy / 2 ^ (150 - exp32 iy) =
                iy / 2 ^ 23 * 2 ^ (23 - (150 - exp32 iy)) + frac32 iy / 2 ^ (150 - exp32 iy) := by
              nth_rewrite 1 [show iy = 2 ^ (150 - exp32 iy) *
                  (iy / 2 ^ 23 * 2 ^ (23 - (150 - exp32 iy))) + iy % 2 ^ 23 by
                rw [← mul_assoc, mul_comm ((2 : ℕ) ^ (150 - exp32 iy)) _, mul_assoc, ← h23d,
                  mul_comm]
                exact (Nat.div_add_mod iy (2 ^ 23)).symm]
              rw [Nat.mul_add_div (by positivity), hfe]
            have heven : (2 : ℕ) ^ (23 - (150 - exp32 iy)) =
                2 * 2 ^ (22 - (150 - exp32 iy)) := by
              rw [show 23 - (150 - exp32 iy) = 22 - (150 - exp32 iy) + 1 by omega, pow_succ']
            rw [hkval, hiyd, heven,
              show iy / 2 ^ 23 * (2 * 2 ^ (22 - (150 - exp32 iy))) =
                2 * (iy / 2 ^ 23 * 2 ^ (22 - (150 - exp32 iy))) by ring]
            omega
          · have hd : 150 - exp32 iy = 23 := by omega
            have he127e : exp32 iy = 127 := by omega
            have hf0 : frac32 iy = 0 := by
              rw [hd] at hdvdf
              exact Nat.eq_zero_of_dvd_of_lt hdvdf
                (by rw [hfe]; exact Nat.mod_lt _ (by positivity))
            have hk1 : sig32 iy / 2 ^ (150 - exp32 iy) = 1 := by
              rw [hd, hsig, hf0]
              norm_num
            have hbit : iy / 2 ^ (150 - exp32 iy) % 2 = 1 := by
              rw [hd]
              have h127 : iy / 2 ^ 23 % 2 ^ 8 = 127 := by rw [← hee]; exact he127e
              omega
            rw [hk1, hbit]
        by_cases h4 : iy / 2 ^ (150 - exp32 iy) % 2 = 1
        · right; left
          refine ⟨by rw [checkint_eq, if_neg h1, if_neg h2, if_neg (not_not_intro h3),
            if_pos h4], ?_⟩
          have hkodd : sig32 iy / 2 ^ (150 - exp32 iy) % 2 = 1 := by rw [hpar]; exact h4
          set k := sig32 iy / 2 ^ (150 - exp32 iy) with hkdef
          obtain ⟨j, hj⟩ : ∃ j, k = 2 * j + 1 := ⟨k / 2, by omega⟩
          rw [hvalk]
          by_cases hs : iy.testBit 31
          · exact ⟨-(j : ℤ) - 1, by rw [if_pos hs, hj]; push_cast; ring⟩
          · exact ⟨(j : ℤ), by rw [if_neg hs, one_mul, hj]; push_cast; ring⟩
        · right; right
          refine ⟨by rw [checkint_eq, if_neg h1, if_neg h2, if_neg (not_not_intro h3),
            if_neg h4], ?_⟩
          have hkev : sig32 iy / 2 ^ (150 - exp32 iy) % 2 = 0 := by
            rw [hpar]
            rcases Nat.mod_two_eq_zero_or_one (iy / 2 ^ (150 - exp32 iy)) with h | h
            · exact h
            · exact absurd h h4
          set k := sig32 iy / 2 ^ (150 - exp32 iy) with hkdef
          obtain ⟨j, hj⟩ : ∃ j, k = 2 * j := ⟨k / 2, by omega⟩
          rw [hvalk]
          by_cases hs : iy.testBit 31
          · exact ⟨-(j : ℤ), by rw [if_pos hs, hj]; push_cast; ring⟩
          · exact ⟨(j : ℤ), by rw [if_neg hs, one_mul, hj]; push_cast; ring⟩

/-- A finite nonzero pattern is rejected by `zeroinfnan`. -/
lemma zeroinfnan_false_of_finite_nonzero (iy : Nat) (h32 : iy < 2 ^ 32)
    (hfin : exp32 iy ≠ 0xff) (hnz : iy &&& 0x7fffffff ≠ 0) : zeroinfnan iy = false := by
  unfold zeroinfnan
  rw [decide_eq_false_iff_not]
  rw [exp32_eq] at hfin
  rw [mask31_eq] at hnz
  omega

/-- A pattern encoding a negative value has its sign bit set. -/
lemma sign_bit_of_neg (iy : Nat) (hneg : val32 iy < 0) : iy &&& 0x80000000 ≠ 0 := by
  rw [show (0x80000000 : ℕ) = 2 ^ 31 from rfl, and_pow_ne_zero_iff]
  by_contra hb
  have hbit : iy.testBit 31 = false := by
    rw [Nat.testBit_to_div_mod]
    simpa using hb
  unfold val32 at hneg
  rw [hbit] at hneg
  simp only [Bool.false_eq_true, if_false, one_mul] at hneg
  have h0 : (0 : ℚ) ≤ ((sig32 iy * 2 ^ max (exp32 iy) 1 : ℕ) : ℚ) / 2 ^ 150 := by positivity
  linarith

/-- On finite nonzero patterns, `checkint` answers 1 exactly on odd integers. -/
lemma checkint_one_iff_odd (iy : Nat) (h32 : iy < 2 ^ 32) (hfin : exp32 iy ≠ 0xff)
    (hnz : iy &&& 0x7fffffff ≠ 0) : checkint iy = 1 ↔ isOddIntQ (val32 iy) := by
  rcases checkint_classify iy h32 hfin hnz with ⟨h0, hP⟩ | ⟨h0, hP⟩ | ⟨h0, hP⟩
  · exact ⟨fun h => by rw [h0] at h; exact absurd h (by norm_num),
      fun h => (hP (isIntQ_of_odd h)).elim⟩
  · exact ⟨fun _ => hP, fun _ => h0⟩
  · exact ⟨fun h => by rw [h0] at h; exact absurd h (by norm_num),
      fun h => (not_odd_and_even h hP).elim⟩

/-- Claim C8: for every binary32 pattern encoding a finite nonzero value,
`checkint` returns 0 iff the value is not a mathematical integer, 1 iff it is
an odd integer, 2 iff it is an even integer; and every encoded value of
magnitude at least 2^24 is classified even. -/
theorem checkint_correct (iy : Nat) (h32 : iy < 2 ^ 32) (hfin : exp32 iy ≠ 0xff)
    (hnz : iy &&& 0x7fffffff ≠ 0) :
    (checkint iy = 0 ↔ ¬ isIntQ (val32 iy)) ∧
    (checkint iy = 1 ↔ isOddIntQ (val32 iy)) ∧
    (checkint iy = 2 ↔ isEvenIntQ (val32 iy)) ∧
    (2 ^ 24 ≤ |val32 iy| → checkint iy = 2) := by
  have hbig : 2 ^ 24 ≤ |val32 iy| → checkint iy = 2 := by
    intro hb
    have he : 150 < exp32 iy := by
      by_contra h
      push_neg at h
      exact absurd hb (not_le.mpr (val32_abs_small iy h))
    rw [checkint_eq, if_neg (by omega), if_pos he]
  rcases checkint_classify iy h32 hfin hnz with ⟨h0, hP⟩ | ⟨h0, hP⟩ | ⟨h0, hP⟩
  · refine ⟨⟨fun _ => hP, fun _ => h0⟩, ?_, ?_, hbig⟩
    · constructor
      · intro h; rw [h0] at h; exact absurd h (by norm_num)
      · intro h; exact absurd (isIntQ_of_odd h) hP
    · constructor
      · intro h; rw [h0] at h; exact absurd h (by norm_num)
      · intro h; exact absurd (isIntQ_of_even h) hP
  · refine ⟨?_, ⟨fun _ => hP, fun _ => h0⟩, ?_, hbig⟩
    · constructor
      · intro h; rw [h0] at h; exact absurd h (by norm_num)
      · intro h; exact (h (isIntQ_of_odd hP)).elim
    · constructor
      · intro h; rw [h0] at h; exact absurd h (by norm_num)
      · intro h; exact (not_odd_and_even hP h).elim
  · refine ⟨?_, ?_, ⟨fun _ => hP, fun _ => h0⟩, hbig⟩
    · constructor
      · intro h; rw [h0] at h; exact absurd h (by norm_num)
      · intro h; exact (h (isIntQ_of_even hP)).elim
    · constructor
      · intro h; rw [h0] at h; exact absurd h (by norm_num)
      · intro h; exact (not_odd_and_even h hP).elim

theorem checkint_correct_witness : isOddIntQ (val32 0x40400000) :=
  ((checkint_correct 0x40400000 (by norm_num) (by decide) (by decide)).2.1).mp (by decide)

/-! ### Claim C7: the zeroinfnan comparison trick -/

/-- Claim C7: for every 32-bit pattern, `zeroinfnan` is true iff the biased
exponent field is all ones (infinity or NaN) or the pattern encodes a zero;
the single wraparound unsigned comparison implements exactly this predicate. -/
theorem zeroinfnan_correct (ix : Nat) (h : ix < 2 ^ 32) :
    zeroinfnan ix = true ↔ exp32 ix = 0xff ∨ ix &&& 0x7fffffff = 0 := by
  unfold zeroinfnan exp32
  rw [Nat.shiftRight_eq_div_pow,
    show (0xff : ℕ) = 2 ^ 8 - 1 from rfl, Nat.and_pow_two_sub_one_eq_mod,
    show (0x7fffffff : ℕ) = 2 ^ 31 - 1 from rfl, Nat.and_pow_two_sub_one_eq_mod]
  simp only [decide_eq_true_eq]
  omega

theorem zeroinfnan_correct_witness : zeroinfnan 0x7f800000 = true :=
  (zeroinfnan_correct 0x7f800000 (by norm_num)).mpr (Or.inl (by decide))

/-! ### Claim C10: the sign-bias addend flips exactly the sign bit -/

/-- Claim C10: since `SIGN_BIAS = 1 << (EXP2F_TABLE_BITS + 11)`, the shifted
addend `(ki + SIGN_BIAS) << (52 - EXP2F_TABLE_BITS)` differs from
`ki << (52 - EXP2F_TABLE_BITS)` by exactly `2^63` modulo `2^64`, so it flips
precisely bit 63 (the sign) and leaves every other bit unchanged. -/
theorem sign_bias_flips_only_sign_bit (ki : Nat) :
    exp2ShiftedAddend ki SIGN_BIAS = (exp2ShiftedAddend ki 0 + 2 ^ 63) % 2 ^ 64 ∧
    (exp2ShiftedAddend ki SIGN_BIAS).testBit 63 = !((exp2ShiftedAddend ki 0).testBit 63) ∧
    ∀ i : Nat, i ≠ 63 →
      (exp2ShiftedAddend ki SIGN_BIAS).testBit i = (exp2ShiftedAddend ki 0).testBit i := by
  have h1 : exp2ShiftedAddend ki SIGN_BIAS = (ki * 2 ^ 47 + 2 ^ 63) % 2 ^ 64 := by
    unfold exp2ShiftedAddend SIGN_BIAS EXP2F_TABLE_BITS
    rw [Nat.shiftLeft_eq, Nat.shiftLeft_eq]
    norm_num [add_mul]
  have h0 : exp2ShiftedAddend ki 0 = ki * 2 ^ 47 % 2 ^ 64 := by
    unfold exp2ShiftedAddend EXP2F_TABLE_BITS
    rw [Nat.shiftLeft_eq]
    norm_num
  set A := ki * 2 ^ 47 with hA
  have key : (A + 2 ^ 63) % 2 ^ 64 = (A % 2 ^ 64 + 2 ^ 63) % 2 ^ 64 := by omega
  refine ⟨by rw [h1, h0, key], ?_, ?_⟩
  · rw [h1, h0, key]
    set a := A % 2 ^ 64 with ha
    have halt : a < 2 ^ 64 := Nat.mod_lt _ (by norm_num)
    rcases lt_or_ge a (2 ^ 63) with h | h
    · have d1 : a / 2 ^ 63 = 0 := Nat.div_eq_of_lt h
      have d2 : (a + 2 ^ 63) % 2 ^ 64 / 2 ^ 63 = 1 := by omega
      simp only [Nat.testBit_to_div_mod, d1, d2]
      norm_num
    · have d1 : a / 2 ^ 63 = 1 := by omega
      have d2 : (a + 2 ^ 63) % 2 ^ 64 / 2 ^ 63 = 0 := by omega
      simp only [Nat.testBit_to_div_mod, d1, d2]
      norm_num
  · intro i hi
    rw [h1, h0, key]
    set a := A % 2 ^ 64 with ha
    have halt : a < 2 ^ 64 := Nat.mod_lt _ (by norm_num)
    rcases lt_or_ge i 63 with hlt | hge
    · have hpow : (2 : Nat) ^ 63 = 2 ^ i * (2 * 2 ^ (62 - i)) := by
        rw [show (2 : Nat) * 2 ^ (62 - i) = 2 ^ (62 - i + 1) from (pow_succ' 2 (62 - i)).symm,
          ← pow_add, show i + (62 - i + 1) = 63 by omega]
      rcases lt_or_ge a (2 ^ 63) with h | h
      · have hb : (a + 2 ^ 63) % 2 ^ 64 = a + 2 ^ i * (2 * 2 ^ (62 - i)) := by
          rw [← hpow]; omega
        rw [hb]
        simp only [Nat.testBit_to_div_mod, parity_div_add]
      · have hb : a = ((a + 2 ^ 63) % 2 ^ 64) + 2 ^ i * (2 * 2 ^ (62 - i)) := by
          rw [← hpow]; omega
        conv_rhs => rw [hb]
        simp only [Nat.testBit_to_div_mod, parity_div_add]
    · have h64 : 64 ≤ i := by omega
      have hp : (2 : Nat) ^ 64 ≤ 2 ^ i := Nat.pow_le_pow_right (by norm_num) h64
      rw [Nat.testBit_lt_two_pow (by omega), Nat.testBit_lt_two_pow (by omega)]

theorem sign_bias_flips_only_sign_bit_witness :
    exp2ShiftedAddend 3 SIGN_BIAS = (exp2ShiftedAddend 3 0 + 2 ^ 63) % 2 ^ 64 ∧
    (exp2ShiftedAddend 3 SIGN_BIAS).testBit 5 = (exp2ShiftedAddend 3 0).testBit 5 :=
  ⟨(sign_bias_flips_only_sign_bit 3).1,
   (sign_bias_flips_only_sign_bit 3).2.2 5 (by norm_num)⟩

/-! ### Claim C1: y equal to a zero returns 1.0f -/

/-- Claim C1: for every input pattern of `x` and `y` equal to +0.0 or -0.0,
the dispatcher returns exactly 1.0f (pattern 0x3f800000) unless `x` is a
signaling NaN, in which case it returns the quieted `x + y`. -/
theorem powf_y_zero_returns_one (we : Bool) (ix iy : Nat) (hix : ix < 2 ^ 32)
    (hiy : iy < 2 ^ 32) (hy0 : 2 * iy % 2 ^ 32 = 0) :
    (issignalingf_inline ix = false →
      powfDispatch we ix iy = .ret 0x3f800000 none) ∧
    (issignalingf_inline ix = true →
      powfDispatch we ix iy = .ret (addNaN32 ix iy) none) := by
  have hz : zeroinfnan iy = true := by
    unfold zeroinfnan
    simp only [decide_eq_true_eq]
    omega
  have hy0n : 2 * iy % 4294967296 = 0 := hy0
  refine ⟨fun h => ?_, fun h => ?_⟩ <;> simp [powfDispatch, hz, hy0n, h]

theorem powf_y_zero_returns_one_witness :
    powfDispatch false 0x40490fdb 0x80000000 = .ret 0x3f800000 none :=
  (powf_y_zero_returns_one false 0x40490fdb 0x80000000 (by norm_num) (by norm_num)
    (by norm_num)).1 (by decide)

/-! ### Claim C4: zero base raised to a negative power -/

/-- Claim C4: for a zero base and a negative finite nonzero exponent, the
dispatcher returns an infinity: minus infinity exactly when the base is -0.0
and the exponent is an odd integer, plus infinity in every other case; the
divide-by-zero condition is signalled exactly when WANT_ERRNO is enabled, and
the numeric result is the same either way. -/
theorem powf_zero_base_negative_y (ix iy : Nat) (hix : ix < 2 ^ 32) (hiy : iy < 2 ^ 32)
    (hx0 : ix &&& 0x7fffffff = 0) (hyfin : exp32 iy ≠ 0xff) (hynz : iy &&& 0x7fffffff ≠ 0)
    (hyneg : val32 iy < 0) (we : Bool) :
    (isOddIntQ (val32 iy) →
      powfDispatch we ix iy =
        .ret (if ix = 0x80000000 then 0xff800000 else 0x7f800000)
          (if we then some Sig.divzero else none)) ∧
    (¬ isOddIntQ (val32 iy) →
      powfDispatch we ix iy = .ret 0x7f800000 (if we then some Sig.divzero else none)) := by
  have hzy : zeroinfnan iy = false := zeroinfnan_false_of_finite_nonzero iy hiy hyfin hynz
  have hsgn : iy &&& 0x80000000 ≠ 0 := sign_bit_of_neg iy hyneg
  have hoddiff := checkint_one_iff_odd iy hiy hyfin hynz
  have hxcase : ix = 0 ∨ ix = 0x80000000 := by
    rw [mask31_eq] at hx0
    omega
  constructor
  · intro hodd
    have hck : checkint iy = 1 := hoddiff.mpr hodd
    rcases hxcase with rfl | rfl <;> cases we <;>
      · simp [powfDispatch, hzy, hck, hsgn, show zeroinfnan 0 = true from by decide,
          show zeroinfnan 0x80000000 = true from by decide]
        all_goals decide
  · intro hnodd
    have hck : checkint iy ≠ 1 := fun h => hnodd (hoddiff.mp h)
    rcases hxcase with rfl | rfl <;> cases we <;>
      · simp [powfDispatch, hzy, hck, hsgn, show zeroinfnan 0 = true from by decide,
          show zeroinfnan 0x80000000 = true from by decide]
        all_goals decide

lemma val32_neg_three : val32 0xc0400000 = -3 := by
  have hbit : Nat.testBit 0xc0400000 31 = true := by decide
  have hsig : sig32 0xc0400000 = 12582912 := by decide
  have hexp : exp32 0xc0400000 = 128 := by decide
  unfold val32
  rw [hbit, hsig, hexp]
  norm_num

/-! ### Claims C6 and C5: the common-path overflow/underflow screening -/

lemma exp64_eq (d : Nat) : exp64 d = d / 2 ^ 52 % 2 ^ 11 := by
  unfold exp64
  rw [Nat.shiftRight_eq_div_pow, show (0x7ff : ℕ) = 2 ^ 11 - 1 from rfl,
    Nat.and_pow_two_sub_one_eq_mod]

lemma frac64_eq (d : Nat) : frac64 d = d % 2 ^ 52 := by
  unfold frac64
  rw [show (0xfffffffffffff : ℕ) = 2 ^ 52 - 1 from rfl, Nat.and_pow_two_sub_one_eq_mod]

lemma abs_val64 (d : Nat) :
    |val64 d| = ((sig64 d * 2 ^ max (exp64 d) 1 : ℕ) : ℚ) / 2 ^ 1075 := by
  unfold val64
  rw [abs_div, abs_mul,
    show |(if d.testBit 63 then (-1 : ℚ) else 1)| = 1 by
      by_cases h : d.testBit 63 <;> simp [h],
    one_mul, abs_of_nonneg (by positivity : (0 : ℚ) ≤ _),
    abs_of_nonneg (by positivity : (0 : ℚ) ≤ (2 : ℚ) ^ 1075)]

/-- Completeness of the exponent-field screen: any binary64 pattern whose
encoded value is infinite, NaN, or of magnitude at least `126 * POWF_SCALE`
passes the fast check of lines 210-212. -/
lemma powfFastCheck_of_abs_ge (d : Nat) (hd : d < 2 ^ 64)
    (h : exp64 d ≠ 0x7ff → (126 : ℚ) * POWF_SCALE ≤ |val64 d|) :
    powfFastCheck d = true := by
  unfold powfFastCheck
  rw [decide_eq_true_eq, Nat.shiftRight_eq_div_pow, Nat.shiftRight_eq_div_pow,
    show (0xffff : ℕ) = 2 ^ 16 - 1 from rfl, Nat.and_pow_two_sub_one_eq_mod]
  have hdd : d / 2 ^ 47 / 2 ^ 5 = d / 2 ^ 52 := by
    rw [Nat.div_div_eq_div_mul, show (2 : ℕ) ^ 47 * 2 ^ 5 = 2 ^ 52 from by norm_num]
  have hq : d % 2 ^ 52 / 2 ^ 47 = d / 2 ^ 47 % 2 ^ 5 := by
    rw [show (2 : ℕ) ^ 52 = 2 ^ 47 * 2 ^ 5 from rfl]
    exact Nat.mod_mul_right_div_self d (2 ^ 47) (2 ^ 5)
  by_cases hfin : exp64 d = 0x7ff
  · rw [exp64_eq] at hfin
    omega
  · have habs := h hfin
    rw [abs_val64, POWF_SCALE, mul_one, le_div_iff₀ (by positivity)] at habs
    have hnat : 126 * 2 ^ 1075 ≤ sig64 d * 2 ^ max (exp64 d) 1 := by
      calc (126 : ℕ) * 2 ^ 1075 = 126 * 2 ^ 1075 := rfl
        _ ≤ sig64 d * 2 ^ max (exp64 d) 1 := by exact_mod_cast habs
    have hsig_lt : sig64 d < 2 ^ 53 := by
      unfold sig64
      rw [frac64_eq]
      split <;> omega
    have he_lt : exp64 d < 2 ^ 11 := by
      rw [exp64_eq]
      omega
    rcases Nat.lt_or_ge (exp64 d) 1029 with hlow | hhigh
    · -- impossible: the magnitude is below 64
      have hmle : max (exp64 d) 1 ≤ 1028 := by omega
      have hle : sig64 d * 2 ^ max (exp64 d) 1 ≤ (2 ^ 53 - 1) * 2 ^ 1028 :=
        Nat.mul_le_mul (by omega) (Nat.pow_le_pow_right (by norm_num) hmle)
      have hcon : ((2 : ℕ) ^ 53 - 1) * 2 ^ 1028 < 126 * 2 ^ 1075 := by norm_num
      omega
    · rcases Nat.lt_or_ge (exp64 d) 1030 with he1029 | he1030
      · have he : exp64 d = 1029 := by omega
        have hmax : max (exp64 d) 1 = exp64 d := by omega
        rw [hmax, he] at hnat
        have hsge : 126 * 2 ^ 46 ≤ sig64 d := by
          have h2 : (126 * 2 ^ 46) * 2 ^ 1029 ≤ sig64 d * 2 ^ 1029 := by
            rw [mul_assoc, ← pow_add]
            exact hnat
          exact Nat.le_of_mul_le_mul_right h2 (by positivity)
        have hf : 31 * 2 ^ 47 ≤ frac64 d := by
          unfold sig64 at hsge
          rw [if_neg (by omega)] at hsge
          rw [frac64_eq] at *
          omega
        rw [frac64_eq] at hf
        rw [exp64_eq] at he
        omega
      · rw [exp64_eq] at he1030 hfin
        omega

/-- Claim C6: the fast exponent-field pre-check is complete: every binary64
pattern whose value is infinite or NaN, or finite of magnitude at least
`126 * POWF_SCALE`, satisfies the bit-level test
`(asuint64 (d) >> 47 & 0xffff) >= asuint64 (126.0 * POWF_SCALE) >> 47`, so no
`ylogx` needing overflow/underflow handling can bypass the slow branch. -/
theorem powf_fastcheck_complete (d : Nat) (hd : d < 2 ^ 64)
    (h : finite64 d = true → 126 * POWF_SCALE ≤ |val64 d|) : powfFastCheck d = true := by
  apply powfFastCheck_of_abs_ge d hd
  intro hfin
  exact h (by unfold finite64; rw [decide_eq_true_eq]; exact hfin)

theorem powf_fastcheck_complete_witness : powfFastCheck 0x4060000000000000 = true := by
  apply powf_fastcheck_complete 0x4060000000000000 (by norm_num)
  intro _
  rw [abs_val64,
    show sig64 0x4060000000000000 * 2 ^ max (exp64 0x4060000000000000) 1 = 128 * 2 ^ 1075
      from by decide,
    POWF_SCALE, mul_one]
  push_cast
  rw [mul_div_cancel_right₀ _ (by positivity : ((2 : ℚ) ^ 1075) ≠ 0)]
  norm_num

/-- Claim C5: for any binary64 pattern of the computed product `ylogx` and any
sign bias, whenever the encoded value lies above the upper threshold
`0x1.fffffffd1d571p+6 * POWF_SCALE` the common-path tail returns the
correctly-signed infinity with the overflow condition, and whenever it is at
or below `-150 * POWF_SCALE` it returns the correctly-signed zero with the
underflow condition. -/
theorem powf_tail_thresholds (d sb : Nat) (hd : d < 2 ^ 64) (hfin : exp64 d ≠ 0x7ff) :
    (upperThreshold * POWF_SCALE < val64 d →
      powfTail d sb = some (oflowRes sb, Sig.overflow)) ∧
    (val64 d ≤ -150 * POWF_SCALE →
      powfTail d sb = some (uflowRes sb, Sig.underflow)) := by
  have hub : (126 : ℚ) ≤ upperThreshold := by
    unfold upperThreshold
    rw [le_div_iff₀ (by positivity)]
    norm_num
  constructor
  · intro hgt
    have hgt' : (126 : ℚ) ≤ val64 d := by
      rw [POWF_SCALE, mul_one] at hgt
      linarith
    have hfc : powfFastCheck d = true :=
      powfFastCheck_of_abs_ge d hd (fun _ => by
        rw [POWF_SCALE, mul_one]
        exact le_trans hgt' (le_abs_self _))
    have hg : fgt64 d (upperThreshold * POWF_SCALE) = true := by
      unfold fgt64
      rw [if_neg hfin, decide_eq_true_eq]
      exact hgt
    unfold powfTail
    rw [hfc, hg]
    simp
  · intro hle
    have hle' : val64 d ≤ -150 := by
      rw [POWF_SCALE, mul_one] at hle
      linarith
    have hfc : powfFastCheck d = true :=
      powfFastCheck_of_abs_ge d hd (fun _ => by
        rw [POWF_SCALE, mul_one, abs_of_nonpos (by linarith)]
        linarith)
    have hg : fgt64 d (upperThreshold * POWF_SCALE) = false := by
      unfold fgt64
      rw [if_neg hfin, decide_eq_false_iff_not]
      intro hcon
      rw [POWF_SCALE, mul_one] at hcon
      linarith
    have hl : fle64 d (-150 * POWF_SCALE) = true := by
      unfold fle64
      rw [if_neg hfin, decide_eq_true_eq]
      exact hle
    unfold powfTail
    rw [hfc, hg, hl]
    simp

theorem powf_tail_thresholds_witness :
    powfTail 0x4060000000000000 0 = some (0x7f800000, Sig.overflow) := by
  have hval : val64 0x4060000000000000 = 128 := by
    have hbit : Nat.testBit 0x4060000000000000 63 = false := by decide
    unfold val64
    rw [hbit]
    simp only [Bool.false_eq_true, if_false, one_mul]
    rw [show sig64 0x4060000000000000 * 2 ^ max (exp64 0x4060000000000000) 1 = 128 * 2 ^ 1075
        from by decide]
    push_cast
    rw [mul_div_cancel_right₀ _ (by positivity : ((2 : ℚ) ^ 1075) ≠ 0)]
  have h := (powf_tail_thresholds 0x4060000000000000 0 (by norm_num) (by decide)).1
    (by
      rw [hval, POWF_SCALE, mul_one]
      unfold upperThreshold
      rw [div_lt_iff₀ (by positivity)]
      norm_num)
  simpa [oflowRes] using h

theorem powf_zero_base_negative_y_witness :
    powfDispatch true 0x80000000 0xc0400000 = .ret 0xff800000 (some Sig.divzero) := by
  have h := (powf_zero_base_negative_y 0x80000000 0xc0400000 (by norm_num) (by norm_num)
    (by decide) (by decide) (by decide) (by rw [val32_neg_three]; norm_num) true).1
    ⟨-2, by rw [val32_neg_three]; norm_num⟩
  simpa using h

end PowfModel
